import Mathlib

/-!
Shallow embedding of the time-integration core of jax-cfd
(`jax_cfd/base/time_stepping.py`, `jax_cfd/spectral/time_stepping.py`,
`jax_cfd/spectral/equations.py`) together with theorems about it.

Scalars (Python floats / complex entries) are modelled by an abstract
field `K`; a state is either an abstract vector-space-like value `V`
(large parts of the code only use `+` and scalar `*` on states) or, where
structural claims demand it, an explicit pytree of named children with
array leaves.  Fallible Python behaviour (`IndexError`, `ValueError`
from unpacking an empty sequence, construction-time configuration
checks) is modelled with `Except String` / `Option`.
-/

namespace JaxCFD

/-- Decidable equality of `Except` results, used to evaluate the embedded
code on concrete inputs. -/
instance {ε α : Type} [DecidableEq ε] [DecidableEq α] : DecidableEq (Except ε α) := fun a b =>
  match a, b with
  | Except.ok x, Except.ok y =>
    if h : x = y then isTrue (by rw [h]) else isFalse (fun hc => h (Except.ok.inj hc))
  | Except.error x, Except.error y =>
    if h : x = y then isTrue (by rw [h]) else isFalse (fun hc => h (Except.error.inj hc))
  | Except.ok _, Except.error _ => isFalse (fun hc => Except.noConfusion hc)
  | Except.error _, Except.ok _ => isFalse (fun hc => Except.noConfusion hc)

/-! ### `jax_cfd/base/time_stepping.py` -/

/-- Embeds `_sum(xs)`: like `builtins.sum` but seeded with the first
element (`result, *xs = xs`); `none` models the `ValueError` Python
raises when unpacking an empty sequence. -/
def listSum {V : Type} [Add V] : List V → Option V
  | [] => none
  | x :: xs => some (xs.foldl (fun r y => r + y) x)

/-- Embeds the generator `(row[j] * k[j] for j in range(i) if row[j])`
inside `navier_stokes_rk.step_fn`: the weighted stage terms, with
zero coefficients skipped by the truthiness test; out-of-range row
access is an `IndexError`. -/
def weightedTerms {K V : Type} [Zero K] [DecidableEq K] [SMul K V]
    (row : List K) (ks : List V) : Nat → Except String (List V)
  | 0 => Except.ok []
  | i + 1 =>
    match weightedTerms row ks i with
    | Except.error e => Except.error e
    | Except.ok ts =>
      match row[i]?, ks[i]? with
      | some c, some v => if c = 0 then Except.ok ts else Except.ok (ts ++ [c • v])
      | _, _ => Except.error "IndexError"

/-- Embeds `_sum(row[j] * k[j] for j in range(i) if row[j])`: an empty
reduction raises `ValueError`. -/
def stageSum {K V : Type} [Zero K] [DecidableEq K] [Add V] [SMul K V]
    (row : List K) (ks : List V) (i : Nat) : Except String V :=
  match weightedTerms row ks i with
  | Except.error e => Except.error e
  | Except.ok ts =>
    match listSum ts with
    | none => Except.error "ValueError: not enough values to unpack"
    | some s => Except.ok s

/-- Embeds the stage loop of `navier_stokes_rk.step_fn`: after
`nsrkKs a F P dt u0 m` the returned list holds the slopes
`k[0], …, k[m]`, where `u[0] = u0`, `k[0] = F(u0)` and, for stage `i`,
`u_star = u0 + dt * _sum(a[i-1][j] * k[j] for j in range(i) if a[i-1][j])`,
`u[i] = P(u_star)`, `k[i] = F(u[i])`. -/
def nsrkKs {K V : Type} [Zero K] [DecidableEq K] [Add V] [SMul K V]
    (a : List (List K)) (F P : V → V) (dt : K) (u0 : V) : Nat → Except String (List V)
  | 0 => Except.ok [F u0]
  | i + 1 =>
    match nsrkKs a F P dt u0 i with
    | Except.error e => Except.error e
    | Except.ok ks =>
      match a[i]? with
      | none => Except.error "IndexError"
      | some row =>
        match stageSum row ks (i + 1) with
        | Except.error e => Except.error e
        | Except.ok s => Except.ok (ks ++ [F (P (u0 + dt • s))])

/-- Embeds `step_fn` of `navier_stokes_rk`: run all intermediate stages,
then return `P(u0 + dt * _sum(b[j] * k[j] for j in range(num_steps) if b[j]))`. -/
def nsrkStep {K V : Type} [Zero K] [DecidableEq K] [Add V] [SMul K V]
    (a : List (List K)) (b : List K) (F P : V → V) (dt : K) (u0 : V) :
    Except String V :=
  match nsrkKs a F P dt u0 (b.length - 1) with
  | Except.error e => Except.error e
  | Except.ok ks =>
    match stageSum b ks b.length with
    | Except.error e => Except.error e
    | Except.ok s => Except.ok (P (u0 + dt • s))

/-- Embeds `navier_stokes_rk`: validate the Butcher tableau
(`len(a) + 1 != len(b)` raises `ValueError("inconsistent Butcher tableau")`)
at construction time, then return the step function.  `F` is
`equation.explicit_terms`, `P` is `equation.pressure_projection`. -/
def navier_stokes_rk {K V : Type} [Zero K] [DecidableEq K] [Add V] [SMul K V]
    (a : List (List K)) (b : List K) (F P : V → V) (dt : K) :
    Except String (V → Except String V) :=
  if a.length + 1 ≠ b.length then Except.error "inconsistent Butcher tableau"
  else Except.ok (fun u0 => nsrkStep a b F P dt u0)

/-- Embeds the `forward_euler` preset (`a = []`, `b = [1]`). -/
def forward_euler {K V : Type} [Field K] [DecidableEq K] [Add V] [SMul K V]
    (F P : V → V) (dt : K) : Except String (V → Except String V) :=
  navier_stokes_rk [] [1] F P dt

/-- Embeds the `midpoint_rk2` preset (`a = [[1/2]]`, `b = [0, 1]`). -/
def midpoint_rk2 {K V : Type} [Field K] [DecidableEq K] [Add V] [SMul K V]
    (F P : V → V) (dt : K) : Except String (V → Except String V) :=
  navier_stokes_rk [[1 / 2]] [0, 1] F P dt

/-- Embeds the `heun_rk2` preset (`a = [[1]]`, `b = [1/2, 1/2]`). -/
def heun_rk2 {K V : Type} [Field K] [DecidableEq K] [Add V] [SMul K V]
    (F P : V → V) (dt : K) : Except String (V → Except String V) :=
  navier_stokes_rk [[1]] [1 / 2, 1 / 2] F P dt

/-- Embeds the `classic_rk4` preset
(`a = [[1/2], [0, 1/2], [0, 0, 1]]`, `b = [1/6, 1/3, 1/3, 1/6]`). -/
def classic_rk4 {K V : Type} [Field K] [DecidableEq K] [Add V] [SMul K V]
    (F P : V → V) (dt : K) : Except String (V → Except String V) :=
  navier_stokes_rk [[1 / 2], [0, 1 / 2], [0, 0, 1]] [1 / 6, 1 / 3, 1 / 3, 1 / 6] F P dt

/-! ### `jax_cfd/spectral/time_stepping.py` -/

/-- Embeds `_InfixArithmeticWrapper`: a transparent view of a pytree
(`wrap(s).pytree == s`). -/
structure ArithmeticWrapper (T : Type) where
  pytree : T

/-- Operations the `_InfixArithmeticWrapper` adapter provides on wrapped
states: wrapper-plus-wrapper (`tree_map(operator.add, ...)`),
wrapper-plus-scalar and wrapper-times-scalar (`tree_map(lambda x: x + other)`
resp. `tree_map(lambda x: x * other)`, broadcasting the scalar to every
leaf).  A concrete state type supplies these three functions. -/
structure WrapperOps (K V : Type) where
  add : V → V → V
  addScalar : V → K → V
  mulScalar : V → K → V

/-- A Python value that is dynamically either a bare scalar or a wrapped
state; `low_storage_runge_kutta_crank_nicolson` seeds its running term
with the scalar `0`. -/
inductive PyVal (K V : Type) where
  | scalar : K → PyVal K V
  | state : V → PyVal K V

/-- Embeds `coef * h` where `h` is dynamically a scalar or a wrapped
state: scalar-times-scalar is field multiplication, scalar-times-wrapper
broadcasts through `__rmul__`. -/
def pvMul {K V : Type} [Mul K] (ops : WrapperOps K V) (c : K) : PyVal K V → PyVal K V
  | PyVal.scalar x => PyVal.scalar (c * x)
  | PyVal.state v => PyVal.state (ops.mulScalar v c)

/-- Embeds `v + h` where `v` is a wrapped state and `h` is dynamically a
scalar or a wrapped state (`__add__` of the wrapper). -/
def pvAddState {K V : Type} (ops : WrapperOps K V) (v : V) : PyVal K V → V
  | PyVal.scalar x => ops.addScalar v x
  | PyVal.state w => ops.add v w

/-- Embeds the step function of `backward_forward_euler`:
`g = u0 + dt * F(u0)`, `u1 = G_inv(g, dt)`.  `F` is
`equation.explicit_terms` and `G_inv` is `equation.implicit_solve`. -/
def backward_forward_euler {K V : Type} (ops : WrapperOps K V)
    (F : V → V) (G_inv : V → K → V) (dt : K) : V → V :=
  fun u0 => G_inv (ops.add u0 (ops.mulScalar (F u0) dt)) dt

/-- Embeds the step function of `crank_nicolson_rk2`:
`g = u0 + 0.5 * dt * G(u0)`; `h1 = F(u0)`; `u1 = G_inv(g + dt * h1, 0.5 * dt)`;
`h2 = 0.5 * (F(u1) + h1)`; `u2 = G_inv(g + dt * h2, 0.5 * dt)`. -/
def crank_nicolson_rk2 {K V : Type} [Field K] (ops : WrapperOps K V)
    (F G : V → V) (G_inv : V → K → V) (dt : K) : V → V :=
  fun u0 =>
    let g := ops.add u0 (ops.mulScalar (G u0) (1 / 2 * dt))
    let h1 := F u0
    let u1 := G_inv (ops.add g (ops.mulScalar h1 dt)) (1 / 2 * dt)
    let h2 := ops.mulScalar (ops.add (F u1) h1) (1 / 2)
    let u2 := G_inv (ops.add g (ops.mulScalar h2 dt)) (1 / 2 * dt)
    u2

/-- Converts a Python indexing result into `Except` (`IndexError` on
out-of-range access). -/
def liftOpt {A : Type} : Option A → Except String A
  | some x => Except.ok x
  | none => Except.error "IndexError"

/-- Embeds the loop body of `low_storage_runge_kutta_crank_nicolson.step_fn`,
iterating `k` over `range(len(betas))` with `n` iterations remaining:
`h = F(u) + betas[k] * h`; `mu = 0.5 * dt * (alphas[k+1] - alphas[k])`;
`u = G_inv(u + gammas[k] * dt * h + mu * G(u), mu)`. -/
def lsrkGo {K V : Type} [Field K] (ops : WrapperOps K V)
    (alphas betas gammas : List K) (dt : K) (F G : V → V) (G_inv : V → K → V) :
    Nat → Nat → V → PyVal K V → Except String V
  | 0, _, u, _ => Except.ok u
  | n + 1, k, u, h =>
    match liftOpt betas[k]? with
    | Except.error e => Except.error e
    | Except.ok bk =>
      let hv := pvAddState ops (F u) (pvMul ops bk h)
      match liftOpt alphas[k + 1]? with
      | Except.error e => Except.error e
      | Except.ok ak1 =>
        match liftOpt alphas[k]? with
        | Except.error e => Except.error e
        | Except.ok ak =>
          match liftOpt gammas[k]? with
          | Except.error e => Except.error e
          | Except.ok gk =>
            let mu := 1 / 2 * dt * (ak1 - ak)
            let u2 := G_inv (ops.add (ops.add u (ops.mulScalar hv (gk * dt)))
              (ops.mulScalar (G u) mu)) mu
            lsrkGo ops alphas betas gammas dt F G G_inv n (k + 1) u2 (PyVal.state hv)

/-- Embeds the step function of `low_storage_runge_kutta_crank_nicolson`:
`h` starts as the plain scalar `0` and the loop runs over all of `betas`. -/
def lsrkStepFn {K V : Type} [Field K] (ops : WrapperOps K V)
    (alphas betas gammas : List K) (dt : K) (F G : V → V) (G_inv : V → K → V)
    (u : V) : Except String V :=
  lsrkGo ops alphas betas gammas dt F G G_inv betas.length 0 u (PyVal.scalar 0)

/-- Embeds `low_storage_runge_kutta_crank_nicolson` including its
construction-time check, which is the Python chained comparison
`len(alphas) - 1 != len(betas) != len(gammas)`, i.e. it raises only when
`len(alphas) - 1 != len(betas)` *and* `len(betas) != len(gammas)` both
hold (`len` arithmetic is over `Int`, as in Python). -/
def low_storage_runge_kutta_crank_nicolson {K V : Type} [Field K] (ops : WrapperOps K V)
    (alphas betas gammas : List K) (F G : V → V) (G_inv : V → K → V) (dt : K) :
    Except String (V → Except String V) :=
  if (alphas.length : Int) - 1 ≠ (betas.length : Int) ∧
      (betas.length : Int) ≠ (gammas.length : Int) then
    Except.error "number of RK coefficients does not match"
  else
    Except.ok (fun u => lsrkStepFn ops alphas betas gammas dt F G G_inv u)

/-- Embeds the `crank_nicolson_rk3` ("Williamson") preset. -/
def crank_nicolson_rk3 {K V : Type} [Field K] (ops : WrapperOps K V)
    (F G : V → V) (G_inv : V → K → V) (dt : K) :
    Except String (V → Except String V) :=
  low_storage_runge_kutta_crank_nicolson ops
    [0, 1 / 3, 3 / 4, 1] [0, -5 / 9, -153 / 128] [1 / 3, 15 / 16, 8 / 15]
    F G G_inv dt

/-- Embeds the `crank_nicolson_rk4` ("Carpenter-Kennedy") preset; the
decimal coefficient literals are represented exactly as rationals. -/
def crank_nicolson_rk4 {K V : Type} [Field K] (ops : WrapperOps K V)
    (F G : V → V) (G_inv : V → K → V) (dt : K) :
    Except String (V → Except String V) :=
  low_storage_runge_kutta_crank_nicolson ops
    [0, 1496590219993 / 10 ^ 13, 3704009573644 / 10 ^ 13, 6222557631345 / 10 ^ 13,
      9582821306748 / 10 ^ 13, 1]
    [0, -4178904745 / 10 ^ 10, -1192151694643 / 10 ^ 12, -1697784692471 / 10 ^ 12,
      -1514183444257 / 10 ^ 12]
    [1496590219993 / 10 ^ 13, 3792103129999 / 10 ^ 13, 8229550293869 / 10 ^ 13,
      6994504559488 / 10 ^ 13, 1530572479681 / 10 ^ 13]
    F G G_inv dt

/-- The scalar instance of the adapter operations: a state with a single
scalar leaf.  Used to evaluate the embedded steppers on concrete inputs. -/
def qOps : WrapperOps ℚ ℚ where
  add := fun a b => a + b
  addScalar := fun a b => a + b
  mulScalar := fun a b => a * b

/-- The pointwise-array instance of the adapter operations: a state is a
family of scalar leaves indexed by `ι`, and every operation acts leafwise
exactly as `tree_map` does. -/
def pointwiseOps (ι K : Type) [Add K] [Mul K] : WrapperOps K (ι → K) where
  add := fun v w i => v i + w i
  addScalar := fun v c i => v i + c
  mulScalar := fun v c i => v i * c

/-! ### `jax_cfd/spectral/equations.py` -/

/-- External collaborators of `NavierStokes2D.explicit_terms`, out of scope
for the core per the spec: the numeric-library constants `jnp.pi` and the
imaginary unit `1j`, `spectral_utils.vorticity_to_velocity(grid)`,
`jnp.fft.irfftn` and `jnp.fft.rfftn`.  Frequency space is indexed by `ι`,
physical space by `σ`; all are opaque to the core. -/
structure SpectralExternals (K ι σ : Type) where
  pi : K
  im : K
  velocity_solve : (ι → K) → (ι → K) × (ι → K)
  irfftn : (ι → K) → (σ → K)
  rfftn : (σ → K) → (ι → K)

/-- Embeds the `NavierStokes2D` dataclass.  `smooth` is declared `bool` in
the source but, Python being dynamically typed, the runtime attribute can
also be `None`; it is modelled as `Option Bool` (`none` = Python `None`)
because the code tests `self.smooth is not None`.  The fields `kx`, `ky`
(from `grid.rfft_mesh()`) and `filter_` (from
`spectral_utils.circular_filter_2d(grid)`) are produced by external
collaborators in `__post_init__` and therefore appear as opaque data;
`laplace` and `linear_term` are derived from them in the source and are
defined below. -/
structure NavierStokes2D (K ι σ : Type) where
  viscosity : K
  drag : K
  smooth : Option Bool
  forcing_fn : Option ((ι → K) → (σ → K))
  kx : ι → K
  ky : ι → K
  filter_ : ι → K

/-- Embeds `self.laplace = (jnp.pi * 2j)**2 * (self.kx**2 + self.ky**2)`
from `NavierStokes2D.__post_init__`. -/
def NavierStokes2D.laplace {K ι σ : Type} [Field K] (e : NavierStokes2D K ι σ)
    (ext : SpectralExternals K ι σ) (k : ι) : K :=
  (ext.pi * (2 * ext.im)) ^ 2 * (e.kx k ^ 2 + e.ky k ^ 2)

/-- Embeds `self.linear_term = self.viscosity * self.laplace - self.drag`
from `NavierStokes2D.__post_init__`. -/
def NavierStokes2D.linear_term {K ι σ : Type} [Field K] (e : NavierStokes2D K ι σ)
    (ext : SpectralExternals K ι σ) (k : ι) : K :=
  e.viscosity * e.laplace ext k - e.drag

/-- Embeds `NavierStokes2D.explicit_terms`: the spectral advection
pipeline, then `if self.smooth is not None: advection_hat *= self.filter_`,
then `if self.forcing_fn is not None: terms += rfftn(forcing_fn(grid, vorticity_hat))`. -/
def NavierStokes2D.explicit_terms {K ι σ : Type} [Field K] (e : NavierStokes2D K ι σ)
    (ext : SpectralExternals K ι σ) (vorticity_hat : ι → K) : ι → K :=
  let vhat := ext.velocity_solve vorticity_hat
  let vx := ext.irfftn vhat.1
  let vy := ext.irfftn vhat.2
  let grad_x_hat := fun k => 2 * ext.im * ext.pi * e.kx k * vorticity_hat k
  let grad_y_hat := fun k => 2 * ext.im * ext.pi * e.ky k * vorticity_hat k
  let grad_x := ext.irfftn grad_x_hat
  let grad_y := ext.irfftn grad_y_hat
  let advection := fun s => -(grad_x s * vx s + grad_y s * vy s)
  let advection_hat := ext.rfftn advection
  let advection_hat2 :=
    if e.smooth.isSome then fun k => advection_hat k * e.filter_ k else advection_hat
  let terms := advection_hat2
  match e.forcing_fn with
  | some f => fun k => terms k + ext.rfftn (f vorticity_hat) k
  | none => terms

/-- Embeds `NavierStokes2D.implicit_terms`:
`return self.linear_term * vorticity_hat`. -/
def NavierStokes2D.implicit_terms {K ι σ : Type} [Field K] (e : NavierStokes2D K ι σ)
    (ext : SpectralExternals K ι σ) (vorticity_hat : ι → K) : ι → K :=
  fun k => e.linear_term ext k * vorticity_hat k

/-- Embeds `NavierStokes2D.implicit_solve`:
`return 1 / (1 - time_step * self.linear_term) * vorticity_hat`. -/
def NavierStokes2D.implicit_solve {K ι σ : Type} [Field K] (e : NavierStokes2D K ι σ)
    (ext : SpectralExternals K ι σ) (vorticity_hat : ι → K) (time_step : K) : ι → K :=
  fun k => 1 / (1 - time_step * e.linear_term ext k) * vorticity_hat k

/-! ### Structured (pytree) states

A pytree is an arbitrarily nested structure of named children whose
leaves are numeric arrays; `tree_util.tree_map` acts leafwise and
requires matching structure. -/

/-- A pytree: either an array leaf or a container of named children. -/
inductive Pytree (K : Type) where
  | leaf : List K → Pytree K
  | node : List (String × Pytree K) → Pytree K

mutual

/-- The structure of a pytree: field names, ordering and leaf shapes
(leaf contents replaced by placeholders of the same length). -/
def Pytree.shape {K : Type} : Pytree K → Pytree Unit
  | Pytree.leaf xs => Pytree.leaf (List.replicate xs.length ())
  | Pytree.node cs => Pytree.node (Pytree.shapeList cs)

/-- Structure of a list of named children. -/
def Pytree.shapeList {K : Type} : List (String × Pytree K) → List (String × Pytree Unit)
  | [] => []
  | c :: cs => (c.1, Pytree.shape c.2) :: Pytree.shapeList cs

end

mutual

/-- Embeds the unary `tree_util.tree_map(fn, pytree)` used by the adapter
for broadcasting a scalar into every leaf. -/
def Pytree.tmap {K : Type} (f : K → K) : Pytree K → Pytree K
  | Pytree.leaf xs => Pytree.leaf (xs.map f)
  | Pytree.node cs => Pytree.node (Pytree.tmapList f cs)

/-- `tree_map` over a list of named children. -/
def Pytree.tmapList {K : Type} (f : K → K) :
    List (String × Pytree K) → List (String × Pytree K)
  | [] => []
  | c :: cs => (c.1, Pytree.tmap f c.2) :: Pytree.tmapList f cs

end

mutual

/-- Embeds the binary `tree_util.tree_map(op, s, t)` used by the adapter
for elementwise addition of two wrapped states: the two trees must have
identical structure (names, ordering, leaf shapes), else the operation
fails. -/
def Pytree.tmap2 {K : Type} (f : K → K → K) :
    Pytree K → Pytree K → Except String (Pytree K)
  | Pytree.leaf xs, Pytree.leaf ys =>
    if xs.length = ys.length then Except.ok (Pytree.leaf (List.zipWith f xs ys))
    else Except.error "ShapeMismatch"
  | Pytree.node cs, Pytree.node ds =>
    match Pytree.tmap2List f cs ds with
    | Except.error e => Except.error e
    | Except.ok rs => Except.ok (Pytree.node rs)
  | _, _ => Except.error "ShapeMismatch"

/-- Binary `tree_map` over lists of named children. -/
def Pytree.tmap2List {K : Type} (f : K → K → K) :
    List (String × Pytree K) → List (String × Pytree K) →
    Except String (List (String × Pytree K))
  | [], [] => Except.ok []
  | c :: cs, d :: ds =>
    if c.1 = d.1 then
      match Pytree.tmap2 f c.2 d.2 with
      | Except.error e => Except.error e
      | Except.ok r =>
        match Pytree.tmap2List f cs ds with
        | Except.error e => Except.error e
        | Except.ok rs => Except.ok ((c.1, r) :: rs)
    else Except.error "ShapeMismatch"
  | _, _ => Except.error "ShapeMismatch"

end

mutual

/-- Broadcasting a scalar over a pytree preserves its structure. -/
theorem Pytree.shape_tmap {K : Type} (f : K → K) :
    (t : Pytree K) → (Pytree.tmap f t).shape = t.shape
  | Pytree.leaf xs => by simp [Pytree.tmap, Pytree.shape]
  | Pytree.node cs => by
    simp [Pytree.tmap, Pytree.shape, Pytree.shapeList_tmapList f cs]

/-- List version of `Pytree.shape_tmap`. -/
theorem Pytree.shapeList_tmapList {K : Type} (f : K → K) :
    (cs : List (String × Pytree K)) →
      Pytree.shapeList (Pytree.tmapList f cs) = Pytree.shapeList cs
  | [] => rfl
  | c :: cs => by
    simp [Pytree.tmapList, Pytree.shapeList, Pytree.shape_tmap f c.2,
      Pytree.shapeList_tmapList f cs]

end

mutual

/-- Elementwise combination of two pytrees of identical structure
succeeds and preserves that structure. -/
theorem Pytree.tmap2_ok {K : Type} (f : K → K → K) :
    (s t : Pytree K) → s.shape = t.shape →
      ∃ r, Pytree.tmap2 f s t = Except.ok r ∧ r.shape = t.shape
  | Pytree.leaf xs, Pytree.leaf ys, h => by
    simp only [Pytree.shape] at h
    have hlen : xs.length = ys.length := by
      have := congrArg (fun t : Pytree Unit =>
        match t with | Pytree.leaf l => l.length | Pytree.node _ => 0) h
      simpa using this
    refine ⟨Pytree.leaf (List.zipWith f xs ys), ?_, ?_⟩
    · simp [Pytree.tmap2, hlen]
    · simp [Pytree.shape, List.length_zipWith, hlen]
  | Pytree.leaf xs, Pytree.node ds, h => by simp [Pytree.shape] at h
  | Pytree.node cs, Pytree.leaf ys, h => by simp [Pytree.shape] at h
  | Pytree.node cs, Pytree.node ds, h => by
    simp only [Pytree.shape, Pytree.node.injEq] at h
    obtain ⟨rs, hrs, hsh⟩ := Pytree.tmap2List_ok f cs ds h
    exact ⟨Pytree.node rs, by simp [Pytree.tmap2, hrs], by simp [Pytree.shape, hsh]⟩

/-- List version of `Pytree.tmap2_ok`. -/
theorem Pytree.tmap2List_ok {K : Type} (f : K → K → K) :
    (cs ds : List (String × Pytree K)) → Pytree.shapeList cs = Pytree.shapeList ds →
      ∃ rs, Pytree.tmap2List f cs ds = Except.ok rs ∧
        Pytree.shapeList rs = Pytree.shapeList ds
  | [], [], _ => ⟨[], rfl, rfl⟩
  | [], d :: ds, h => by simp [Pytree.shapeList] at h
  | c :: cs, [], h => by simp [Pytree.shapeList] at h
  | c :: cs, d :: ds, h => by
    simp only [Pytree.shapeList, List.cons.injEq, Prod.mk.injEq] at h
    obtain ⟨⟨hn, hs⟩, ht⟩ := h
    obtain ⟨r, hr, hrsh⟩ := Pytree.tmap2_ok f c.2 d.2 hs
    obtain ⟨rs, hrs, hrssh⟩ := Pytree.tmap2List_ok f cs ds ht
    refine ⟨(c.1, r) :: rs, ?_, ?_⟩
    · simp [Pytree.tmap2List, hn, hr, hrs]
    · simp [Pytree.shapeList, hrsh, hrssh, hn]

end

/-- Pytrees of a fixed structure `sh`. -/
def Tr (K : Type) (sh : Pytree Unit) : Type := {t : Pytree K // t.shape = sh}

/-- Elementwise addition of two pytrees of the same structure (total,
with structure preservation provided by `Pytree.tmap2_ok`). -/
def trAdd {K : Type} [Add K] {sh : Pytree Unit} (s t : Tr K sh) : Tr K sh :=
  match h : Pytree.tmap2 (fun a b => a + b) s.val t.val with
  | Except.ok r => ⟨r, by
      obtain ⟨r2, hr2, hsh⟩ :=
        Pytree.tmap2_ok (fun a b => a + b) s.val t.val (by rw [s.2, t.2])
      rw [h] at hr2
      cases hr2
      rw [hsh, t.2]⟩
  | Except.error e => False.elim (by
      obtain ⟨r2, hr2, _⟩ :=
        Pytree.tmap2_ok (fun a b => a + b) s.val t.val (by rw [s.2, t.2])
      rw [h] at hr2
      exact Except.noConfusion hr2)

instance {K : Type} [Add K] {sh : Pytree Unit} : Add (Tr K sh) := ⟨trAdd⟩

instance {K : Type} [Mul K] {sh : Pytree Unit} : SMul K (Tr K sh) :=
  ⟨fun c s => ⟨s.val.tmap (fun x => c * x), by rw [Pytree.shape_tmap, s.2]⟩⟩

/-- The adapter operations on pytree states of a fixed structure: wrapped
addition is the binary `tree_map`, scalar broadcast the unary one, as in
`_InfixArithmeticWrapper`. -/
def treeOps (K : Type) [Add K] [Mul K] (sh : Pytree Unit) : WrapperOps K (Tr K sh) where
  add := trAdd
  addScalar := fun s c => ⟨s.val.tmap (fun x => x + c), by rw [Pytree.shape_tmap, s.2]⟩
  mulScalar := fun s c => ⟨s.val.tmap (fun x => x * c), by rw [Pytree.shape_tmap, s.2]⟩

/-! ### Spec-side description of the explicit Runge-Kutta stepper

The following two definitions transcribe §4.3 of the specification (the
recurrence `u[0] = u0`, `k[0] = F(u0)`;
`u_star = u0 + dt * Σ_j a[i-1][j] * k[j]`, `u[i] = P(u_star)`,
`k[i] = F(u[i])`; final `P(u0 + dt * Σ_j b[j] * k[j])`), to be compared
with the embedded `navier_stokes_rk`. -/

/-- Spec-side stage slopes `k[0], …, k[m]` over a module of states. -/
def specKs {K V : Type} [Field K] [AddCommMonoid V] [Module K V]
    (a : List (List K)) (F P : V → V) (dt : K) (u0 : V) : Nat → List V
  | 0 => [F u0]
  | i + 1 =>
    let ks := specKs a F P dt u0 i
    let row := a.getD i []
    let ui := P (u0 + dt •
      ((List.range (i + 1)).map (fun j => row.getD j 0 • ks.getD j 0)).sum)
    ks ++ [F ui]

/-- Spec-side description of one explicit Runge-Kutta step. -/
def specRKStep {K V : Type} [Field K] [AddCommMonoid V] [Module K V]
    (a : List (List K)) (b : List K) (F P : V → V) (dt : K) (u0 : V) : V :=
  let ks := specKs a F P dt u0 (b.length - 1)
  P (u0 + dt • ((List.range b.length).map (fun j => b.getD j 0 • ks.getD j 0)).sum)

/-! ### Lemmas about the explicit Runge-Kutta stepper -/

/-- `weightedTerms` succeeds when the indices are in range, and returns
exactly the nonzero-coefficient weighted terms in order (`d` is an
arbitrary default never actually read). -/
theorem weightedTerms_eq {K V : Type} [Zero K] [DecidableEq K] [SMul K V]
    (row : List K) (ks : List V) (d : V) (i : Nat)
    (hrow : i ≤ row.length) (hks : i ≤ ks.length) :
    weightedTerms row ks i = Except.ok
      (((List.range i).filter (fun j => decide (row.getD j 0 ≠ 0))).map
        (fun j => row.getD j 0 • ks.getD j d)) := by
  induction i with
  | zero => simp [weightedTerms]
  | succ i ih =>
    have hrow1 : i < row.length := by omega
    have hks1 : i < ks.length := by omega
    have h1 : row[i]? = some row[i] := List.getElem?_eq_getElem hrow1
    have h2 : ks[i]? = some ks[i] := List.getElem?_eq_getElem hks1
    have hgd : row.getD i 0 = row[i] := by
      simp [List.getD_eq_getElem?_getD, h1]
    have hgk : ks.getD i d = ks[i] := by
      simp [List.getD_eq_getElem?_getD, h2]
    by_cases hc : row[i] = 0
    · simp [weightedTerms, ih (by omega) (by omega), h1, h2, hc,
        List.range_succ, List.filter_append, hgd]
    · simp [weightedTerms, ih (by omega) (by omega), h1, h2, hc,
        List.range_succ, List.filter_append, hgd, hgk]

/-- Seeded left fold of addition equals the seed plus the list sum. -/
theorem foldl_add_eq_add_sum {V : Type} [AddCommMonoid V] (xs : List V) (x : V) :
    xs.foldl (fun r y => r + y) x = x + xs.sum := by
  induction xs generalizing x with
  | nil => simp
  | cons y ys ih => simp [ih, add_assoc]

/-- On a nonempty list, `_sum` succeeds and computes the list sum. -/
theorem listSum_eq_sum {V : Type} [AddCommMonoid V] (l : List V) (h : l ≠ []) :
    listSum l = some l.sum := by
  cases l with
  | nil => exact absurd rfl h
  | cons x xs => simp [listSum, foldl_add_eq_add_sum]

/-- Skipping zero-weighted terms does not change a weighted sum. -/
theorem sum_filter_nonzero {K V : Type} [Semiring K] [DecidableEq K]
    [AddCommMonoid V] [Module K V] (l : List Nat) (g : Nat → K) (w : Nat → V) :
    ((l.filter (fun j => decide (g j ≠ 0))).map (fun j => g j • w j)).sum
      = (l.map (fun j => g j • w j)).sum := by
  induction l with
  | nil => rfl
  | cons j l ih =>
    by_cases hj : g j = 0
    · rw [List.filter_cons, if_neg (by simp [hj]), List.map_cons, List.sum_cons, ih,
        hj, zero_smul, zero_add]
    · rw [List.filter_cons, if_pos (by simp [hj]), List.map_cons, List.sum_cons,
        List.map_cons, List.sum_cons, ih]

/-- If some coefficient among the first `i` is nonzero, the filtered term
list is nonempty. -/
theorem weighted_filter_ne_nil {K V : Type} [Zero K] [DecidableEq K]
    (row : List K) (i : Nat) (f : Nat → V) (hnz : ∃ j < i, row.getD j 0 ≠ 0) :
    ((List.range i).filter (fun j => decide (row.getD j 0 ≠ 0))).map f ≠ [] := by
  obtain ⟨j, hj, hnzj⟩ := hnz
  have hmem : j ∈ (List.range i).filter (fun j => decide (row.getD j 0 ≠ 0)) :=
    List.mem_filter.2 ⟨List.mem_range.2 hj,
      by simpa [List.getD_eq_getElem?_getD] using hnzj⟩
  intro hnil
  rw [List.map_eq_nil_iff] at hnil
  rw [hnil] at hmem
  exact List.not_mem_nil j hmem

/-- `stageSum` succeeds whenever the indices are in range and at least one
of the first `i` coefficients is nonzero. -/
theorem stageSum_isOk {K V : Type} [Zero K] [DecidableEq K] [Add V] [SMul K V]
    (row : List K) (ks : List V) (i : Nat) (hrow : i ≤ row.length)
    (hks : i ≤ ks.length) (hnz : ∃ j < i, row.getD j 0 ≠ 0) :
    ∃ s, stageSum row ks i = Except.ok s := by
  have hi : 0 < i := by obtain ⟨j, hj, _⟩ := hnz; omega
  obtain ⟨v, ks2, rfl⟩ : ∃ v ks2, ks = v :: ks2 := by
    cases ks with
    | nil => simp at hks; omega
    | cons v ks2 => exact ⟨v, ks2, rfl⟩
  simp only [stageSum, weightedTerms_eq (V := V) row (v :: ks2) v i hrow hks]
  obtain ⟨x, l, hxl⟩ := List.exists_cons_of_ne_nil
    (weighted_filter_ne_nil row i
      (fun j => row.getD j 0 • (v :: ks2).getD j v) hnz)
  rw [hxl]
  simp [listSum]

/-- Over a module of states, `stageSum` computes the full weighted sum of
the spec (zero coefficients contribute nothing). -/
theorem stageSum_eq {K V : Type} [Semiring K] [DecidableEq K]
    [AddCommMonoid V] [Module K V]
    (row : List K) (ks : List V) (i : Nat) (hrow : i ≤ row.length)
    (hks : i ≤ ks.length) (hnz : ∃ j < i, row.getD j 0 ≠ 0) :
    stageSum row ks i = Except.ok
      (((List.range i).map (fun j => row.getD j 0 • ks.getD j 0)).sum) := by
  have h1 := weightedTerms_eq row ks 0 i hrow hks
  have h2 := listSum_eq_sum
    (((List.range i).filter (fun j => decide (row.getD j 0 ≠ 0))).map
      (fun j => row.getD j 0 • ks.getD j 0))
    (weighted_filter_ne_nil row i _ hnz)
  simp only [stageSum, h1, h2]
  rw [sum_filter_nonzero]

/-- Indexing inside the validated range returns the `getD` value. -/
theorem getElem?_eq_some_getD {A : Type} (l : List A) (d : A) (i : Nat)
    (h : i < l.length) : l[i]? = some (l.getD i d) := by
  rw [List.getD_eq_getElem?_getD, List.getElem?_eq_getElem h]
  rfl

/-- The stage loop succeeds and produces `m + 1` slopes whenever every
stage row is long enough and contains a nonzero coefficient. -/
theorem nsrkKs_ok {K V : Type} [Zero K] [DecidableEq K] [Add V] [SMul K V]
    (a : List (List K)) (F P : V → V) (dt : K) (u0 : V) (m : Nat)
    (hm : m ≤ a.length)
    (hrowlen : ∀ i < m, i + 1 ≤ (a.getD i []).length)
    (hrnz : ∀ i < m, ∃ j < i + 1, (a.getD i []).getD j 0 ≠ 0) :
    ∃ ks, nsrkKs a F P dt u0 m = Except.ok ks ∧ ks.length = m + 1 := by
  induction m with
  | zero => exact ⟨[F u0], rfl, rfl⟩
  | succ m ih =>
    obtain ⟨ks, hks, hlen⟩ := ih (by omega)
      (fun i hi => hrowlen i (by omega)) (fun i hi => hrnz i (by omega))
    have ha : a[m]? = some (a.getD m []) :=
      getElem?_eq_some_getD a [] m (by omega)
    obtain ⟨s, hs⟩ := stageSum_isOk (a.getD m []) ks (m + 1)
      (hrowlen m (by omega)) (by omega) (hrnz m (by omega))
    refine ⟨ks ++ [F (P (u0 + dt • s))], ?_, ?_⟩
    · simp only [nsrkKs, hks, ha, hs]
    · simp [hlen]

/-- The embedded step function succeeds (returns a state rather than
raising) whenever the tableau lengths are consistent, every stage row is
long enough, and every stage row and the weight vector contain a nonzero
coefficient. -/
theorem nsrkStep_ok {K V : Type} [Zero K] [DecidableEq K] [Add V] [SMul K V]
    (a : List (List K)) (b : List K) (F P : V → V) (dt : K) (u0 : V)
    (hlen : a.length + 1 = b.length)
    (hrowlen : ∀ i < a.length, i + 1 ≤ (a.getD i []).length)
    (hrnz : ∀ i < a.length, ∃ j < i + 1, (a.getD i []).getD j 0 ≠ 0)
    (hbnz : ∃ j < b.length, b.getD j 0 ≠ 0) :
    ∃ v, nsrkStep a b F P dt u0 = Except.ok v := by
  obtain ⟨ks, hks, hlenks⟩ := nsrkKs_ok a F P dt u0 (b.length - 1) (by omega)
    (fun i hi => hrowlen i (by omega)) (fun i hi => hrnz i (by omega))
  obtain ⟨s, hs⟩ := stageSum_isOk b ks b.length le_rfl (by omega) hbnz
  refine ⟨P (u0 + dt • s), ?_⟩
  simp only [nsrkStep, hks, hs]

/-- The spec-side slope list has `m + 1` entries. -/
theorem specKs_length {K V : Type} [Field K] [AddCommMonoid V] [Module K V]
    (a : List (List K)) (F P : V → V) (dt : K) (u0 : V) (m : Nat) :
    (specKs a F P dt u0 m).length = m + 1 := by
  induction m with
  | zero => rfl
  | succ m ih => simp [specKs, ih]

/-- Over a module of states the embedded stage loop computes exactly the
spec-side slopes. -/
theorem nsrkKs_spec {K V : Type} [Field K] [DecidableEq K]
    [AddCommMonoid V] [Module K V]
    (a : List (List K)) (F P : V → V) (dt : K) (u0 : V) (m : Nat)
    (hm : m ≤ a.length)
    (hrowlen : ∀ i < m, i + 1 ≤ (a.getD i []).length)
    (hrnz : ∀ i < m, ∃ j < i + 1, (a.getD i []).getD j 0 ≠ 0) :
    nsrkKs a F P dt u0 m = Except.ok (specKs a F P dt u0 m) := by
  induction m with
  | zero => rfl
  | succ m ih =>
    have ihv := ih (by omega)
      (fun i hi => hrowlen i (by omega)) (fun i hi => hrnz i (by omega))
    have ha : a[m]? = some (a.getD m []) :=
      getElem?_eq_some_getD a [] m (by omega)
    have hss := stageSum_eq (a.getD m []) (specKs a F P dt u0 m) (m + 1)
      (hrowlen m (by omega)) (by rw [specKs_length]) (hrnz m (by omega))
    simp only [nsrkKs, ihv, ha, hss, specKs]

/-- Over a module of states the embedded step function computes exactly
the spec-side Runge-Kutta step. -/
theorem nsrkStep_spec {K V : Type} [Field K] [DecidableEq K]
    [AddCommMonoid V] [Module K V]
    (a : List (List K)) (b : List K) (F P : V → V) (dt : K) (u0 : V)
    (hlen : a.length + 1 = b.length)
    (hrowlen : ∀ i < a.length, i + 1 ≤ (a.getD i []).length)
    (hrnz : ∀ i < a.length, ∃ j < i + 1, (a.getD i []).getD j 0 ≠ 0)
    (hbnz : ∃ j < b.length, b.getD j 0 ≠ 0) :
    nsrkStep a b F P dt u0 = Except.ok (specRKStep a b F P dt u0) := by
  have hks := nsrkKs_spec a F P dt u0 (b.length - 1) (by omega)
    (fun i hi => hrowlen i (by omega)) (fun i hi => hrnz i (by omega))
  have hss := stageSum_eq b (specKs a F P dt u0 (b.length - 1)) b.length le_rfl
    (by rw [specKs_length]; omega) hbnz
  simp only [nsrkStep, hks, hss, specRKStep]

/-! ### Zero-dynamics lemmas -/

/-- `getD` on a replicated list with the replicated default. -/
theorem getD_replicate_self {V : Type} (z : V) (n j : Nat) :
    (List.replicate n z).getD j z = z := by
  rw [List.getD_eq_getElem?_getD, List.getElem?_replicate]
  by_cases h : j < n <;> simp [h]

/-- `_sum` of a nonempty list of copies of an idempotent-sum element. -/
theorem listSum_of_all_eq {V : Type} [Add V] (z : V) (hzadd : z + z = z)
    (l : List V) (hall : ∀ x ∈ l, x = z) (hne : l ≠ []) :
    listSum l = some z := by
  cases l with
  | nil => exact absurd rfl hne
  | cons x xs =>
    have hx : x = z := hall x (by simp)
    have haux : ∀ ys : List V, (∀ y ∈ ys, y = z) →
        ys.foldl (fun r y => r + y) z = z := by
      intro ys
      induction ys with
      | nil => intro _; rfl
      | cons y ys ih =>
        intro hys
        have hy : y = z := hys y (by simp)
        simp only [List.foldl_cons, hy, hzadd]
        exact ih (fun y hy2 => hys y (by simp [hy2]))
    simp only [listSum, hx]
    rw [haux xs (fun y hy => hall y (by simp [hy]))]

/-- When the equation has zero dynamics (`F` constantly the zero state)
and `P` is the identity, `stageSum` over replicated zero slopes returns
the zero state. -/
theorem stageSum_zero {K V : Type} [Zero K] [DecidableEq K] [Add V] [SMul K V]
    (row : List K) (z : V) (n i : Nat)
    (hzadd : z + z = z) (hzsmul : ∀ c : K, c • z = z)
    (hrow : i ≤ row.length) (hn : i ≤ n) (hnz : ∃ j < i, row.getD j 0 ≠ 0) :
    stageSum row (List.replicate n z) i = Except.ok z := by
  have h1 := weightedTerms_eq row (List.replicate n z) z i hrow (by simpa)
  have h2 : listSum (((List.range i).filter (fun j => decide (row.getD j 0 ≠ 0))).map
      (fun j => row.getD j 0 • (List.replicate n z).getD j z)) = some z := by
    apply listSum_of_all_eq z hzadd
    · intro x hx
      obtain ⟨j, _, hj⟩ := List.mem_map.1 hx
      rw [← hj, getD_replicate_self, hzsmul]
    · exact weighted_filter_ne_nil row i _ hnz
  simp only [stageSum, h1, h2]

/-- Zero-dynamics stage loop: every slope is the zero state. -/
theorem nsrkKs_zero {K V : Type} [Zero K] [DecidableEq K] [Add V] [SMul K V]
    (a : List (List K)) (F P : V → V) (dt : K) (u0 : V) (z : V)
    (hF : ∀ v, F v = z) (hP : ∀ v, P v = v)
    (hzadd : ∀ v, v + z = v) (hzsmul : ∀ c : K, c • z = z) (m : Nat)
    (hm : m ≤ a.length)
    (hrowlen : ∀ i < m, i + 1 ≤ (a.getD i []).length)
    (hrnz : ∀ i < m, ∃ j < i + 1, (a.getD i []).getD j 0 ≠ 0) :
    nsrkKs a F P dt u0 m = Except.ok (List.replicate (m + 1) z) := by
  induction m with
  | zero => simp [nsrkKs, hF u0, List.replicate]
  | succ m ih =>
    have ihv := ih (by omega)
      (fun i hi => hrowlen i (by omega)) (fun i hi => hrnz i (by omega))
    have ha : a[m]? = some (a.getD m []) :=
      getElem?_eq_some_getD a [] m (by omega)
    have hss := stageSum_zero (a.getD m []) z (m + 1) (m + 1)
      (hzadd z) hzsmul (hrowlen m (by omega)) le_rfl (hrnz m (by omega))
    simp only [nsrkKs, ihv, ha, hss, hzsmul, hzadd, hP, hF]
    rw [← List.replicate_succ']

/-- Zero-dynamics single step of the embedded explicit Runge-Kutta
stepper: the input state is returned unchanged. -/
theorem nsrkStep_zero {K V : Type} [Zero K] [DecidableEq K] [Add V] [SMul K V]
    (a : List (List K)) (b : List K) (F P : V → V) (dt : K) (u0 : V) (z : V)
    (hF : ∀ v, F v = z) (hP : ∀ v, P v = v)
    (hzadd : ∀ v, v + z = v) (hzsmul : ∀ c : K, c • z = z)
    (hlen : a.length + 1 = b.length)
    (hrowlen : ∀ i < a.length, i + 1 ≤ (a.getD i []).length)
    (hrnz : ∀ i < a.length, ∃ j < i + 1, (a.getD i []).getD j 0 ≠ 0)
    (hbnz : ∃ j < b.length, b.getD j 0 ≠ 0) :
    nsrkStep a b F P dt u0 = Except.ok u0 := by
  have hks := nsrkKs_zero a F P dt u0 z hF hP hzadd hzsmul (b.length - 1) (by omega)
    (fun i hi => hrowlen i (by omega)) (fun i hi => hrnz i (by omega))
  have hrep : b.length - 1 + 1 = b.length := by omega
  have hss := stageSum_zero b z b.length b.length (hzadd z) hzsmul le_rfl le_rfl hbnz
  simp only [nsrkStep, hks, hrep, hss, hzsmul, hzadd, hP]

/-! ### Lemmas about the low-storage IMEX stepper -/

/-- With coefficient lists of the validated lengths, the low-storage loop
never raises: every index access is in range. -/
theorem lsrkGo_ok {K V : Type} [Field K] (ops : WrapperOps K V)
    (alphas betas gammas : List K) (dt : K) (F G : V → V) (G_inv : V → K → V)
    (ha : alphas.length = betas.length + 1) (hg : gammas.length = betas.length) :
    ∀ n k (u : V) (h : PyVal K V), k + n ≤ betas.length →
      ∃ v, lsrkGo ops alphas betas gammas dt F G G_inv n k u h = Except.ok v := by
  intro n
  induction n with
  | zero => exact fun k u h _ => ⟨u, rfl⟩
  | succ n ih =>
    intro k u h hkn
    have hb : betas[k]? = some (betas.getD k 0) :=
      getElem?_eq_some_getD betas 0 k (by omega)
    have ha1 : alphas[k + 1]? = some (alphas.getD (k + 1) 0) :=
      getElem?_eq_some_getD alphas 0 (k + 1) (by omega)
    have ha0 : alphas[k]? = some (alphas.getD k 0) :=
      getElem?_eq_some_getD alphas 0 k (by omega)
    have hg0 : gammas[k]? = some (gammas.getD k 0) :=
      getElem?_eq_some_getD gammas 0 k (by omega)
    obtain ⟨v, hv⟩ := ih (k + 1) (G_inv (ops.add (ops.add u
      (ops.mulScalar (pvAddState ops (F u) (pvMul ops (betas.getD k 0) h))
        (gammas.getD k 0 * dt)))
      (ops.mulScalar (G u) (1 / 2 * dt * (alphas.getD (k + 1) 0 - alphas.getD k 0))))
      (1 / 2 * dt * (alphas.getD (k + 1) 0 - alphas.getD k 0)))
      (PyVal.state (pvAddState ops (F u) (pvMul ops (betas.getD k 0) h))) (by omega)
    exact ⟨v, by simp only [lsrkGo, hb, ha1, ha0, hg0, liftOpt, hv]⟩

/-- Zero-dynamics low-storage loop: with `F` and `G` constantly the zero
state and `G_inv` the identity in its first argument, the state passes
through unchanged, whether the running term is the scalar-zero seed or
the zero state. -/
theorem lsrkGo_zero {K V : Type} [Field K] (ops : WrapperOps K V)
    (alphas betas gammas : List K) (dt : K) (F G : V → V) (G_inv : V → K → V)
    (z : V)
    (hF : ∀ v, F v = z) (hG : ∀ v, G v = z) (hGinv : ∀ v c, G_inv v c = v)
    (hoadd : ∀ v, ops.add v z = v) (homul : ∀ c, ops.mulScalar z c = z)
    (hoaddS : ops.addScalar z 0 = z)
    (ha : alphas.length = betas.length + 1) (hg : gammas.length = betas.length) :
    ∀ n k (u : V) (h : PyVal K V), k + n ≤ betas.length →
      (h = PyVal.scalar 0 ∨ h = PyVal.state z) →
      lsrkGo ops alphas betas gammas dt F G G_inv n k u h = Except.ok u := by
  intro n
  induction n with
  | zero => exact fun k u h _ _ => rfl
  | succ n ih =>
    intro k u h hkn hcase
    have hb : betas[k]? = some (betas.getD k 0) :=
      getElem?_eq_some_getD betas 0 k (by omega)
    have ha1 : alphas[k + 1]? = some (alphas.getD (k + 1) 0) :=
      getElem?_eq_some_getD alphas 0 (k + 1) (by omega)
    have ha0 : alphas[k]? = some (alphas.getD k 0) :=
      getElem?_eq_some_getD alphas 0 k (by omega)
    have hg0 : gammas[k]? = some (gammas.getD k 0) :=
      getElem?_eq_some_getD gammas 0 k (by omega)
    have hhv : pvAddState ops (F u) (pvMul ops (betas.getD k 0) h) = z := by
      rcases hcase with hc | hc
      · rw [hc]
        simp only [pvMul, pvAddState, mul_zero, hF, hoaddS]
      · rw [hc]
        simp only [pvMul, pvAddState, homul, hF, hoadd]
    have hu2 : G_inv (ops.add (ops.add u
        (ops.mulScalar (pvAddState ops (F u) (pvMul ops (betas.getD k 0) h))
          (gammas.getD k 0 * dt)))
        (ops.mulScalar (G u) (1 / 2 * dt * (alphas.getD (k + 1) 0 - alphas.getD k 0))))
        (1 / 2 * dt * (alphas.getD (k + 1) 0 - alphas.getD k 0)) = u := by
      rw [hhv, homul, hoadd, hG, homul, hoadd, hGinv]
    simp only [lsrkGo, hb, ha1, ha0, hg0, liftOpt]
    rw [hhv] at hu2 ⊢
    rw [hu2]
    exact ih (k + 1) u (PyVal.state z) (by omega) (Or.inr rfl)

/-- The low-storage loop does not depend on the entries of `betas` at
positions strictly below `k`; in particular two coefficient lists that
agree from position 1 on produce identical continuations from `k ≥ 1`. -/
theorem lsrkGo_congr {K V : Type} [Field K] (ops : WrapperOps K V)
    (alphas betas1 betas2 gammas : List K) (dt : K) (F G : V → V)
    (G_inv : V → K → V)
    (hagree : ∀ j, 1 ≤ j → betas1[j]? = betas2[j]?) :
    ∀ n k (u : V) (h : PyVal K V), 1 ≤ k →
      lsrkGo ops alphas betas1 gammas dt F G G_inv n k u h
        = lsrkGo ops alphas betas2 gammas dt F G G_inv n k u h := by
  intro n
  induction n with
  | zero => exact fun _ _ _ _ => rfl
  | succ n ih =>
    intro k u h hk
    simp only [lsrkGo, hagree k hk]
    cases liftOpt betas2[k]? with
    | error e => rfl
    | ok bk =>
      cases liftOpt alphas[k + 1]? with
      | error e => rfl
      | ok ak1 =>
        cases liftOpt alphas[k]? with
        | error e => rfl
        | ok ak =>
          cases liftOpt gammas[k]? with
          | error e => rfl
          | ok gk => exact ih (k + 1) _ _ (by omega)

/-! ### Concrete example data for evaluating the spectral equation -/

/-- A concrete one-frequency `NavierStokes2D` instance over `ℚ` with unit
wavenumbers, parameterised by the `smooth` flag and the value of the
dealiasing filter. -/
def nsExample (sm : Option Bool) (fl : ℚ) : NavierStokes2D ℚ (Fin 1) (Fin 1) where
  viscosity := 1
  drag := 1
  smooth := sm
  forcing_fn := none
  kx := fun _ => 1
  ky := fun _ => 1
  filter_ := fun _ => fl

/-- Concrete external collaborators over a single frequency/grid point:
the transforms are the identity and the velocity solve duplicates its
input; `pi` and the imaginary unit are represented by `1`. -/
def extExample : SpectralExternals ℚ (Fin 1) (Fin 1) where
  pi := 1
  im := 1
  velocity_solve := fun v => (v, v)
  irfftn := fun v => v
  rfftn := fun v => v

/-! ### Claim theorems -/

/-- C1: constructing `low_storage_runge_kutta_crank_nicolson` with
`alphas` of length 4, `betas` of length 3 and `gammas` of length 2 —
which violates the invariant `len(alphas) - 1 == len(betas) == len(gammas)`
because `len(betas) = 3 ≠ 2 = len(gammas)` — succeeds instead of raising:
the Python chained comparison
`len(alphas) - 1 != len(betas) != len(gammas)` only raises when *both*
inequalities hold, and here `len(alphas) - 1 == len(betas)`. -/
theorem c1_mismatched_lengths_accepted :
    (low_storage_runge_kutta_crank_nicolson qOps [0, 0, 0, 0] [0, 0, 0] [0, 0]
      (fun x : ℚ => x) (fun x => x) (fun x _ => x) 1).isOk = true := by
  norm_num [low_storage_runge_kutta_crank_nicolson, Except.isOk, Except.toBool]

/-- C2: with dealiasing "disabled" (`smooth = False`) the circular filter
is nevertheless applied, because the code tests `self.smooth is not None`
rather than the boolean value: on a state with raw advection term `-4`
and filter value `0`, `explicit_terms` returns `0` (the filtered value),
whereas with `smooth = None` the raw unfiltered value `-4` is returned.
(With `forcing_fn = None`, forcing indeed contributes nothing in both.) -/
theorem c2_filter_applied_when_smooth_false :
    (nsExample (some false) 0).explicit_terms extExample (fun _ => 1) 0 = 0
  ∧ (nsExample none 0).explicit_terms extExample (fun _ => 1) 0 = -4 := by
  constructor <;> norm_num [NavierStokes2D.explicit_terms, nsExample, extExample]

/-- C5: `navier_stokes_rk` raises `ValueError("inconsistent Butcher tableau")`
at construction time exactly when `len(a) + 1 != len(b)`, and otherwise
returns a step function. -/
theorem c5_tableau_validation {K V : Type} [Zero K] [DecidableEq K] [Add V] [SMul K V]
    (a : List (List K)) (b : List K) (F P : V → V) (dt : K) :
    (a.length + 1 ≠ b.length →
      navier_stokes_rk a b F P dt = Except.error "inconsistent Butcher tableau")
  ∧ (a.length + 1 = b.length →
      ∃ step, navier_stokes_rk a b F P dt = Except.ok step) := by
  constructor
  · intro h
    simp [navier_stokes_rk, h]
  · intro h
    exact ⟨fun u0 => nsrkStep a b F P dt u0, by simp [navier_stokes_rk, h]⟩

/-- Witness for C5 at concrete tableaux. -/
theorem c5_tableau_validation_witness :
    (navier_stokes_rk ([] : List (List ℚ)) [1, 2] (id : ℚ → ℚ) id 1
      = Except.error "inconsistent Butcher tableau")
  ∧ ∃ step, navier_stokes_rk ([] : List (List ℚ)) [1] (id : ℚ → ℚ) id 1
      = Except.ok step :=
  ⟨(c5_tableau_validation [] [1, 2] id id 1).1 (by norm_num),
   (c5_tableau_validation [] [1] id id 1).2 (by norm_num)⟩

/-- C7: for a strictly linear equation (`explicit_terms = 0`,
`implicit_solve(x, h) = x / (1 - h*lam)` pointwise) the
`backward_forward_euler` stepper maps every state `u` to exactly
`u / (1 - dt*lam)` at every leaf: the explicit contribution vanishes
identically. -/
theorem c7_backward_euler_exact (ι K : Type) [Field K] (lam dt : K)
    (u : ι → K) (i : ι) :
    backward_forward_euler (pointwiseOps ι K) (fun _ => fun _ => 0)
      (fun x h => fun j => x j / (1 - h * lam)) dt u i = u i / (1 - dt * lam) := by
  simp [backward_forward_euler, pointwiseOps]

/-- C8: for every `NavierStokes2D` equation, state `x` and step size `h`
with `1 - h * linear_term` nonzero at every frequency, the value
`y = implicit_solve(x, h)` satisfies the backward equation
`y - h * implicit_terms(y) = x` exactly, pointwise in frequency space. -/
theorem c8_implicit_solve_inverts {K ι σ : Type} [Field K]
    (e : NavierStokes2D K ι σ) (ext : SpectralExternals K ι σ)
    (x : ι → K) (h : K)
    (hnz : ∀ k, 1 - h * e.linear_term ext k ≠ 0) :
    ∀ k, e.implicit_solve ext x h k
      - h * e.implicit_terms ext (e.implicit_solve ext x h) k = x k := by
  intro k
  have hk := hnz k
  simp only [NavierStokes2D.implicit_solve, NavierStokes2D.implicit_terms]
  field_simp
  ring

/-- Witness for C8 on the concrete one-frequency equation, where
`linear_term = 7` and `h = 1`. -/
theorem c8_implicit_solve_inverts_witness :
    (∀ k : Fin 1, (1 : ℚ) - 1 * (nsExample (some true) 1).linear_term extExample k ≠ 0)
  ∧ (∀ k : Fin 1, (nsExample (some true) 1).implicit_solve extExample (fun _ => 5) 1 k
      - 1 * (nsExample (some true) 1).implicit_terms extExample
          ((nsExample (some true) 1).implicit_solve extExample (fun _ => 5) 1) k
      = (fun _ : Fin 1 => (5 : ℚ)) k) :=
  ⟨fun k => by norm_num [NavierStokes2D.linear_term, NavierStokes2D.laplace,
      nsExample, extExample],
   c8_implicit_solve_inverts (nsExample (some true) 1) extExample (fun _ => 5) 1
     (fun k => by norm_num [NavierStokes2D.linear_term, NavierStokes2D.laplace,
       nsExample, extExample])⟩

/-- C3 counterexample: the valid tableau `a = []`, `b = [0]`
(`len(a) + 1 == len(b)`, all-zero `b`) passes construction, yet the step
raises a `ValueError` mid-step: `_sum` cannot seed itself from the empty
sequence of nonzero-weighted terms. -/
theorem c3_all_zero_b_raises_mid_step :
    nsrkStep ([] : List (List ℚ)) [0] (id : ℚ → ℚ) id 1 5
      = Except.error "ValueError: not enough values to unpack" := by
  norm_num [nsrkStep, nsrkKs, stageSum, weightedTerms, listSum]

/-- C3 (amended): for a consistent tableau whose stage rows are long
enough and whose stage rows and weight vector each contain at least one
nonzero coefficient, construction succeeds and the step function always
returns a state, never raising mid-step. -/
theorem c3_no_mid_step_errors {K V : Type} [Zero K] [DecidableEq K] [Add V] [SMul K V]
    (a : List (List K)) (b : List K) (F P : V → V) (dt : K) (u : V)
    (hlen : a.length + 1 = b.length)
    (hrowlen : ∀ i < a.length, i + 1 ≤ (a.getD i []).length)
    (hrnz : ∀ i < a.length, ∃ j < i + 1, (a.getD i []).getD j 0 ≠ 0)
    (hbnz : ∃ j < b.length, b.getD j 0 ≠ 0) :
    (∃ step, navier_stokes_rk a b F P dt = Except.ok step)
  ∧ ∃ v, nsrkStep a b F P dt u = Except.ok v :=
  ⟨⟨fun u0 => nsrkStep a b F P dt u0, by simp [navier_stokes_rk, hlen]⟩,
   nsrkStep_ok a b F P dt u hlen hrowlen hrnz hbnz⟩

/-- Witness for the amended C3 on the Heun-like tableau `a = [[1]]`,
`b = [1, 1]`. -/
theorem c3_no_mid_step_errors_witness :
    (∃ step, navier_stokes_rk [[(1 : ℚ)]] [1, 1] (id : ℚ → ℚ) id 1 = Except.ok step)
  ∧ ∃ v, nsrkStep [[(1 : ℚ)]] [1, 1] (id : ℚ → ℚ) id 1 2 = Except.ok v :=
  c3_no_mid_step_errors [[(1 : ℚ)]] [1, 1] id id 1 2 (by norm_num)
    (by intro i hi; norm_num at hi; subst hi; simp)
    (by intro i hi; norm_num at hi; subst hi; exact ⟨0, by norm_num, by norm_num [List.getD]⟩)
    ⟨0, by norm_num, by norm_num [List.getD]⟩

/-- C6 counterexample: on the valid tableau `a = [[0]]`, `b = [0, 1]`
(stage row all zero) the embedded stepper raises mid-step instead of
computing the spec-side recurrence value. -/
theorem c6_zero_row_code_deviates_from_spec :
    nsrkStep [[(0 : ℚ)]] [0, 1] (id : ℚ → ℚ) id 1 5
      ≠ Except.ok (specRKStep [[(0 : ℚ)]] [0, 1] (id : ℚ → ℚ) id 1 5) := by
  have h : nsrkStep [[(0 : ℚ)]] [0, 1] (id : ℚ → ℚ) id 1 5
      = Except.error "ValueError: not enough values to unpack" := by
    norm_num [nsrkStep, nsrkKs, stageSum, weightedTerms, listSum]
  rw [h]
  simp

/-- C6 (amended): for a consistent tableau whose stage rows are long
enough and whose stage rows and weight vector each contain a nonzero
coefficient, the embedded stepper computes exactly the spec recurrence:
`u[0] = u0`, `k[0] = F(u0)`; for `1 ≤ i < n`,
`u[i] = P(u0 + dt * Σ_{j<i} a[i-1][j] * k[j])`, `k[i] = F(u[i])`; and it
returns `P(u0 + dt * Σ_j b[j] * k[j])`, with the projection applied after
every intermediate stage and after the final combination. -/
theorem c6_rk_step_refines_spec {K V : Type} [Field K] [DecidableEq K]
    [AddCommMonoid V] [Module K V]
    (a : List (List K)) (b : List K) (F P : V → V) (dt : K) (u0 : V)
    (hlen : a.length + 1 = b.length)
    (hrowlen : ∀ i < a.length, i + 1 ≤ (a.getD i []).length)
    (hrnz : ∀ i < a.length, ∃ j < i + 1, (a.getD i []).getD j 0 ≠ 0)
    (hbnz : ∃ j < b.length, b.getD j 0 ≠ 0) :
    nsrkStep a b F P dt u0 = Except.ok (specRKStep a b F P dt u0) :=
  nsrkStep_spec a b F P dt u0 hlen hrowlen hrnz hbnz

/-- Witness for the amended C6 on the Heun-like tableau. -/
theorem c6_rk_step_refines_spec_witness :
    nsrkStep [[(1 : ℚ)]] [1, 1] (id : ℚ → ℚ) id 1 2
      = Except.ok (specRKStep [[(1 : ℚ)]] [1, 1] (id : ℚ → ℚ) id 1 2) :=
  c6_rk_step_refines_spec [[(1 : ℚ)]] [1, 1] id id 1 2 (by norm_num)
    (by intro i hi; norm_num at hi; subst hi; simp)
    (by intro i hi; norm_num at hi; subst hi; exact ⟨0, by norm_num, by norm_num [List.getD]⟩)
    ⟨0, by norm_num, by norm_num [List.getD]⟩

/-- C4 counterexample: under zero dynamics (`F` constantly the zero
state, `P` the identity) the stepper built from the valid tableau
`a = [[0]]`, `b = [1, 0]` does *not* return its input: the all-zero stage
row makes the step raise mid-step, so `step(u) = u` fails. -/
theorem c4_zero_dynamics_zero_row_not_fixed_point :
    nsrkStep [[(0 : ℚ)]] [1, 0] (fun _ => (0 : ℚ)) id 1 5 ≠ Except.ok 5 := by
  have h : nsrkStep [[(0 : ℚ)]] [1, 0] (fun _ => (0 : ℚ)) id 1 5
      = Except.error "ValueError: not enough values to unpack" := by
    norm_num [nsrkStep, nsrkKs, stageSum, weightedTerms, listSum]
  rw [h]
  simp

/-- C4 (amended): if `explicit_terms` and `implicit_terms` always return
the additive-identity state `z`, `implicit_solve(v, h) = v` and
`pressure_projection` is the identity, then every stepper returns its
input unchanged — `navier_stokes_rk` for every consistent tableau whose
stage rows and weight vector contain a nonzero coefficient (which all
four explicit presets do), `backward_forward_euler`,
`crank_nicolson_rk2`, `low_storage_runge_kutta_crank_nicolson` for all
coefficient lists satisfying the length invariant, and its RK3/RK4
presets. -/
theorem c4_zero_dynamics_fixed_point {K V : Type} [Field K] [DecidableEq K]
    [CharZero K] [Add V] [SMul K V]
    (ops : WrapperOps K V) (z : V) (F G P : V → V) (G_inv : V → K → V)
    (dt : K) (u : V)
    (hF : ∀ v, F v = z) (hG : ∀ v, G v = z)
    (hGinv : ∀ v c, G_inv v c = v) (hP : ∀ v, P v = v)
    (hzadd : ∀ v, v + z = v) (hzsmul : ∀ c : K, c • z = z)
    (hoadd : ∀ v, ops.add v z = v) (homul : ∀ c, ops.mulScalar z c = z)
    (hoaddS : ops.addScalar z 0 = z) :
    (∀ (a : List (List K)) (b : List K),
        a.length + 1 = b.length →
        (∀ i < a.length, i + 1 ≤ (a.getD i []).length) →
        (∀ i < a.length, ∃ j < i + 1, (a.getD i []).getD j 0 ≠ 0) →
        (∃ j < b.length, b.getD j 0 ≠ 0) →
        nsrkStep a b F P dt u = Except.ok u)
  ∧ (∃ s, forward_euler F P dt = Except.ok s ∧ s u = Except.ok u)
  ∧ (∃ s, midpoint_rk2 F P dt = Except.ok s ∧ s u = Except.ok u)
  ∧ (∃ s, heun_rk2 F P dt = Except.ok s ∧ s u = Except.ok u)
  ∧ (∃ s, classic_rk4 F P dt = Except.ok s ∧ s u = Except.ok u)
  ∧ backward_forward_euler ops F G_inv dt u = u
  ∧ crank_nicolson_rk2 ops F G G_inv dt u = u
  ∧ (∀ alphas betas gammas : List K,
        alphas.length = betas.length + 1 → gammas.length = betas.length →
        ∃ s, low_storage_runge_kutta_crank_nicolson ops alphas betas gammas F G G_inv dt
            = Except.ok s ∧ s u = Except.ok u)
  ∧ (∃ s, crank_nicolson_rk3 ops F G G_inv dt = Except.ok s ∧ s u = Except.ok u)
  ∧ (∃ s, crank_nicolson_rk4 ops F G G_inv dt = Except.ok s ∧ s u = Except.ok u) := by
  have hrk : ∀ (a : List (List K)) (b : List K),
      a.length + 1 = b.length →
      (∀ i < a.length, i + 1 ≤ (a.getD i []).length) →
      (∀ i < a.length, ∃ j < i + 1, (a.getD i []).getD j 0 ≠ 0) →
      (∃ j < b.length, b.getD j 0 ≠ 0) →
      nsrkStep a b F P dt u = Except.ok u :=
    fun a b h1 h2 h3 h4 => nsrkStep_zero a b F P dt u z hF hP hzadd hzsmul h1 h2 h3 h4
  have hpreset : ∀ (a : List (List K)) (b : List K),
      a.length + 1 = b.length →
      (∀ i < a.length, i + 1 ≤ (a.getD i []).length) →
      (∀ i < a.length, ∃ j < i + 1, (a.getD i []).getD j 0 ≠ 0) →
      (∃ j < b.length, b.getD j 0 ≠ 0) →
      ∃ s, navier_stokes_rk a b F P dt = Except.ok s ∧ s u = Except.ok u :=
    fun a b h1 h2 h3 h4 =>
      ⟨fun u0 => nsrkStep a b F P dt u0, by simp [navier_stokes_rk, h1],
        hrk a b h1 h2 h3 h4⟩
  have hlsrk : ∀ alphas betas gammas : List K,
      alphas.length = betas.length + 1 → gammas.length = betas.length →
      ∃ s, low_storage_runge_kutta_crank_nicolson ops alphas betas gammas F G G_inv dt
          = Except.ok s ∧ s u = Except.ok u := by
    intro alphas betas gammas ha hg
    have hcond : ¬(((alphas.length : Int) - 1 ≠ (betas.length : Int)) ∧
        ((betas.length : Int) ≠ (gammas.length : Int))) := by
      rw [ha, hg]
      push_cast
      omega
    refine ⟨fun v => lsrkStepFn ops alphas betas gammas dt F G G_inv v, ?_, ?_⟩
    · rw [low_storage_runge_kutta_crank_nicolson, if_neg hcond]
    · exact lsrkGo_zero ops alphas betas gammas dt F G G_inv z hF hG hGinv hoadd
        homul hoaddS ha hg betas.length 0 u (PyVal.scalar 0) (by omega) (Or.inl rfl)
  refine ⟨hrk, ?_, ?_, ?_, ?_, ?_, ?_, hlsrk, ?_, ?_⟩
  · refine hpreset [] [1] (by norm_num) ?_ ?_ ⟨0, by norm_num, by norm_num [List.getD]⟩
    · intro i hi
      norm_num at hi
    · intro i hi
      norm_num at hi
  · refine hpreset [[1 / 2]] [0, 1] (by norm_num) ?_ ?_
      ⟨1, by norm_num, by norm_num [List.getD]⟩
    · intro i hi
      norm_num at hi
      subst hi
      simp
    · intro i hi
      norm_num at hi
      subst hi
      exact ⟨0, by norm_num, by norm_num [List.getD]⟩
  · refine hpreset [[1]] [1 / 2, 1 / 2] (by norm_num) ?_ ?_
      ⟨0, by norm_num, by norm_num [List.getD]⟩
    · intro i hi
      norm_num at hi
      subst hi
      simp
    · intro i hi
      norm_num at hi
      subst hi
      exact ⟨0, by norm_num, by norm_num [List.getD]⟩
  · refine hpreset [[1 / 2], [0, 1 / 2], [0, 0, 1]] [1 / 6, 1 / 3, 1 / 3, 1 / 6]
      (by norm_num) ?_ ?_ ⟨0, by norm_num, by norm_num [List.getD]⟩
    · intro i hi
      norm_num at hi
      interval_cases i <;> simp
    · intro i hi
      norm_num at hi
      interval_cases i
      · exact ⟨0, by norm_num, by norm_num [List.getD]⟩
      · exact ⟨1, by norm_num, by norm_num [List.getD]⟩
      · exact ⟨2, by norm_num, by norm_num [List.getD]⟩
  · simp only [backward_forward_euler, hF, homul, hoadd, hGinv]
  · simp only [crank_nicolson_rk2, hF, hG, homul, hoadd, hGinv]
  · exact hlsrk [0, 1 / 3, 3 / 4, 1] [0, -5 / 9, -153 / 128] [1 / 3, 15 / 16, 8 / 15]
      (by norm_num) (by norm_num)
  · exact hlsrk
      [0, 1496590219993 / 10 ^ 13, 3704009573644 / 10 ^ 13, 6222557631345 / 10 ^ 13,
        9582821306748 / 10 ^ 13, 1]
      [0, -4178904745 / 10 ^ 10, -1192151694643 / 10 ^ 12, -1697784692471 / 10 ^ 12,
        -1514183444257 / 10 ^ 12]
      [1496590219993 / 10 ^ 13, 3792103129999 / 10 ^ 13, 8229550293869 / 10 ^ 13,
        6994504559488 / 10 ^ 13, 1530572479681 / 10 ^ 13]
      (by norm_num) (by norm_num)

/-- Witness for the amended C4: the zero-dynamics fixed point evaluated
for `backward_forward_euler` on scalar states over `ℚ`. -/
theorem c4_zero_dynamics_fixed_point_witness :
    backward_forward_euler qOps (fun _ => (0 : ℚ)) (fun v _ => v) 3 7 = 7 :=
  (c4_zero_dynamics_fixed_point qOps 0 (fun _ => 0) (fun _ => 0) id (fun v _ => v)
    3 7 (fun _ => rfl) (fun _ => rfl) (fun _ _ => rfl) (fun _ => rfl)
    (fun v => add_zero v) (fun c => smul_zero c) (fun v => add_zero v)
    (fun c => zero_mul c) (add_zero 0)).2.2.2.2.2.1

/-- Replacing the head of a list does not change positions `j ≥ 1`. -/
theorem getElem?_set_zero_of_pos {A : Type} (l : List A) (x y : A) (j : Nat)
    (hj : 1 ≤ j) : (l.set 0 x)[j]? = (l.set 0 y)[j]? := by
  rw [List.getElem?_set_ne (by omega), List.getElem?_set_ne (by omega)]

/-- C10: `low_storage_runge_kutta_crank_nicolson` never inspects the
value of `betas[0]`: the construction check depends only on lengths, and
since the running term `h` is seeded with the plain scalar `0`, the first
stage computes `h = F(u) + betas[0] * 0 = F(u)` regardless of `betas[0]`
(the adapter broadcast-adds the scalar zero to every leaf), so the step
output is identical for any two values of `betas[0]`. -/
theorem c10_beta0_immaterial {K V : Type} [Field K] (ops : WrapperOps K V)
    (hs0 : ∀ v, ops.addScalar v 0 = v)
    (alphas betas gammas : List K) (x y : K) (F G : V → V) (G_inv : V → K → V)
    (dt : K) (u : V) :
    ((low_storage_runge_kutta_crank_nicolson ops alphas (betas.set 0 x) gammas
        F G G_inv dt).isOk
      = (low_storage_runge_kutta_crank_nicolson ops alphas (betas.set 0 y) gammas
        F G G_inv dt).isOk)
  ∧ lsrkStepFn ops alphas (betas.set 0 x) gammas dt F G G_inv u
      = lsrkStepFn ops alphas (betas.set 0 y) gammas dt F G G_inv u := by
  constructor
  · simp only [low_storage_runge_kutta_crank_nicolson, List.length_set]
    by_cases hc : ((alphas.length : Int) - 1 ≠ (betas.length : Int) ∧
        (betas.length : Int) ≠ (gammas.length : Int))
    · rw [if_pos hc, if_pos hc]
    · rw [if_neg hc, if_neg hc]
      rfl
  · cases betas with
    | nil => rfl
    | cons b0 bt =>
      have hagree : ∀ j, 1 ≤ j → ((b0 :: bt).set 0 x)[j]? = ((b0 :: bt).set 0 y)[j]? :=
        fun j hj => getElem?_set_zero_of_pos (b0 :: bt) x y j hj
      simp only [lsrkStepFn, List.set_cons_zero, List.length_cons, lsrkGo,
        List.getElem?_cons_zero, liftOpt]
      simp only [pvMul, mul_zero, pvAddState, hs0]
      cases h1 : alphas[0 + 1]? with
      | none => rfl
      | some ak1 =>
        cases h2 : alphas[0]? with
        | none => rfl
        | some ak =>
          cases h3 : gammas[0]? with
          | none => rfl
          | some gk =>
            exact lsrkGo_congr ops alphas (x :: bt) (y :: bt) gammas dt F G G_inv
              (fun j hj => by
                cases j with
                | zero => omega
                | succ j => simp [List.getElem?_cons_succ]) bt.length 1 _ _ le_rfl

/-- Witness for C10: two different values of `betas[0]` give the same
accepted construction and the same step output on scalar states. -/
theorem c10_beta0_immaterial_witness :
    ((low_storage_runge_kutta_crank_nicolson qOps [0, 1] ([5].set 0 2) [1]
        (id : ℚ → ℚ) id (fun v c => v + c) 1).isOk
      = (low_storage_runge_kutta_crank_nicolson qOps [0, 1] ([5].set 0 3) [1]
        (id : ℚ → ℚ) id (fun v c => v + c) 1).isOk)
  ∧ lsrkStepFn qOps [0, 1] ([5].set 0 2) [1] 1 (id : ℚ → ℚ) id (fun v c => v + c) 7
      = lsrkStepFn qOps [0, 1] ([5].set 0 3) [1] 1 (id : ℚ → ℚ) id (fun v c => v + c) 7 :=
  c10_beta0_immaterial qOps (fun v => add_zero v) [0, 1] [5] [1] 2 3 id id
    (fun v c => v + c) 1 7

/-- C9: the arithmetic adapter preserves nested structure and is a
transparent view, and every stepper's output has exactly the structure of
its input.  Concretely: (1) elementwise addition of two pytrees of equal
structure succeeds and preserves that structure; (2) scalar broadcasts
preserve structure; (3) `unwrap(wrap(s)) = s`; (4) on pytree states of
any fixed structure `sh`, `backward_forward_euler` and
`crank_nicolson_rk2` return states of structure `sh`, and
`low_storage_runge_kutta_crank_nicolson` (for coefficient lists of
invariant lengths) and `navier_stokes_rk` (for consistent tableaux with a
nonzero coefficient in every stage row and in the weights) return
`Except.ok` of a state of structure `sh`. -/
theorem c9_structure_preservation {K : Type} [Field K] [DecidableEq K] :
    (∀ (f : K → K → K) (s t : Pytree K), s.shape = t.shape →
       ∃ r, Pytree.tmap2 f s t = Except.ok r ∧ r.shape = s.shape)
  ∧ (∀ (f : K → K) (s : Pytree K), (s.tmap f).shape = s.shape)
  ∧ (∀ s : Pytree K, (ArithmeticWrapper.mk s).pytree = s)
  ∧ (∀ (sh : Pytree Unit) (F G P : Tr K sh → Tr K sh)
       (G_inv : Tr K sh → K → Tr K sh) (dt : K) (u : Tr K sh),
       (backward_forward_euler (treeOps K sh) F G_inv dt u).val.shape = u.val.shape
     ∧ (crank_nicolson_rk2 (treeOps K sh) F G G_inv dt u).val.shape = u.val.shape
     ∧ (∀ alphas betas gammas : List K,
          alphas.length = betas.length + 1 → gammas.length = betas.length →
          ∃ v, lsrkStepFn (treeOps K sh) alphas betas gammas dt F G G_inv u
              = Except.ok v ∧ v.val.shape = u.val.shape)
     ∧ (∀ (a : List (List K)) (b : List K),
          a.length + 1 = b.length →
          (∀ i < a.length, i + 1 ≤ (a.getD i []).length) →
          (∀ i < a.length, ∃ j < i + 1, (a.getD i []).getD j 0 ≠ 0) →
          (∃ j < b.length, b.getD j 0 ≠ 0) →
          ∃ v, nsrkStep a b F P dt u = Except.ok v ∧ v.val.shape = u.val.shape)) := by
  refine ⟨?_, ?_, ?_, ?_⟩
  · intro f s t h
    obtain ⟨r, hr, hsh⟩ := Pytree.tmap2_ok f s t h
    exact ⟨r, hr, by rw [hsh, ← h]⟩
  · exact fun f s => Pytree.shape_tmap f s
  · exact fun s => rfl
  · intro sh F G P G_inv dt u
    refine ⟨?_, ?_, ?_, ?_⟩
    · exact (backward_forward_euler (treeOps K sh) F G_inv dt u).2.trans u.2.symm
    · exact (crank_nicolson_rk2 (treeOps K sh) F G G_inv dt u).2.trans u.2.symm
    · intro alphas betas gammas ha hg
      obtain ⟨v, hv⟩ := lsrkGo_ok (treeOps K sh) alphas betas gammas dt F G G_inv
        ha hg betas.length 0 u (PyVal.scalar 0) (by omega)
      exact ⟨v, hv, v.2.trans u.2.symm⟩
    · intro a b h1 h2 h3 h4
      obtain ⟨v, hv⟩ := nsrkStep_ok a b F P dt u h1 h2 h3 h4
      exact ⟨v, hv, v.2.trans u.2.symm⟩

/-- Witness for C9: adapter addition on two concrete two-field records of
equal structure succeeds and preserves the structure. -/
theorem c9_structure_preservation_witness :
    ∃ r, Pytree.tmap2 (fun a b => a + b)
        (Pytree.node [("a", Pytree.leaf [(1 : ℚ), 2]), ("b", Pytree.leaf [3])])
        (Pytree.node [("a", Pytree.leaf [(4 : ℚ), 5]), ("b", Pytree.leaf [6])])
        = Except.ok r
      ∧ r.shape
        = (Pytree.node [("a", Pytree.leaf [(1 : ℚ), 2]), ("b", Pytree.leaf [3])]).shape :=
  (@c9_structure_preservation ℚ _ _).1 (fun a b => a + b)
    (Pytree.node [("a", Pytree.leaf [(1 : ℚ), 2]), ("b", Pytree.leaf [3])])
    (Pytree.node [("a", Pytree.leaf [(4 : ℚ), 5]), ("b", Pytree.leaf [6])]) rfl

end JaxCFD
